import Mathlib

/-!
Verification of the LSCP dual-layout pipeline
(`backend/api/dual_layout.py` of the LSCP repository).

Modelling conventions:
* Python floats are modelled as real numbers (`ℝ`), so every algebraic
  identity below is about exact real arithmetic, not IEEE rounding.
* numpy embedding vectors are `List ℝ`; 3D coordinate rows are
  `Vec3 := Fin 3 → ℝ`.
* Python dicts are association lists `List (String × _)` (insertion
  order preserved, as in CPython); `dict.keys()` is `keys`.
* Python `sorted` on strings is insertion sort by code-point
  lexicographic order (`strLEb`).
* Exceptions are `Except String _` / `Option _` results.
* The two LAPACK-backed steps (`np.linalg.svd` inside the authentic
  branch and `scipy.spatial.procrustes` in the constrained branch) are
  modelled by passing the orthogonal matrix `R` (and scale `s`) they
  produce as explicit parameters; `IsProcrustesOutput` states the
  property scipy documents for its choice (it minimizes the squared
  residual between the standardized point sets over orthogonal
  transforms and scalings).
-/

namespace LSCP

abbrev Vec3 := Fin 3 → ℝ

abbrev Coords := List (String × Vec3)

abbrev Emb := List (String × List ℝ)

/-- The keys of an association list (Python `dict.keys()` / `set(...)` input). -/
def keys {α : Type} (l : List (String × α)) : List String := l.map Prod.fst

/-! ### Python `sorted` on strings (code-point lexicographic order) -/

/-- Lexicographic strict comparison of char lists by code point,
exactly Python's `<` on strings. -/
def charsLt : List Char → List Char → Bool
  | [], [] => false
  | [], _ :: _ => true
  | _ :: _, [] => false
  | c :: cs, d :: ds =>
    if c.toNat < d.toNat then true
    else if d.toNat < c.toNat then false
    else charsLt cs ds

/-- Boolean `≤` on strings by code points. -/
def strLEb (a b : String) : Bool := ! charsLt b.data a.data

/-- The `≤` relation used to model Python `sorted` on strings. -/
def strLE (a b : String) : Prop := strLEb a b = true

instance : DecidableRel strLE := fun a b => instDecidableEqBool (strLEb a b) true

/-- Python `sorted` on a list of strings. -/
def sortStrings (l : List String) : List String := l.insertionSort strLE

theorem sortStrings_perm (l : List String) : List.Perm (sortStrings l) l :=
  List.perm_insertionSort _ l

theorem mem_sortStrings {c : String} {l : List String} :
    c ∈ sortStrings l ↔ c ∈ l :=
  (sortStrings_perm l).mem_iff

/-! ### Vector and matrix arithmetic helpers (numpy operations) -/

/-- `np.dot` on 1-D arrays. -/
noncomputable def dotL : List ℝ → List ℝ → ℝ
  | x :: xs, y :: ys => x * y + dotL xs ys
  | _, _ => 0

/-- `np.linalg.norm` of a 1-D array. -/
noncomputable def npNormL (v : List ℝ) : ℝ := Real.sqrt (dotL v v)

/-- Squared euclidean norm of a 3-vector. -/
noncomputable def sqNorm3 (v : Vec3) : ℝ := v 0 ^ 2 + v 1 ^ 2 + v 2 ^ 2

/-- `np.linalg.norm` of a 3-vector. -/
noncomputable def norm3 (v : Vec3) : ℝ := Real.sqrt (sqNorm3 v)

/-! ### `compute_knn_relationships` (dual_layout.py lines 18–63) -/

/-- Cosine distance `1 - cos_sim` as computed at dual_layout.py lines 53–54. -/
noncomputable def cosDist (u v : List ℝ) : ℝ :=
  1 - dotL u v / (npNormL u * npNormL v)

/-- The inner loop of `compute_knn_relationships` (lines 44–55): for a fixed
`concept` with vector `cv`, the list of `(other, dist)` pairs over all other
concepts with non-zero-norm vectors, in dict order. -/
noncomputable def candidates (emb : Emb) (c : String) (cv : List ℝ) :
    List (String × ℝ) :=
  emb.filterMap fun q =>
    if q.1 ≠ c then
      if npNormL q.2 = 0 then none else some (q.1, cosDist cv q.2)
    else none

/-- Ordering used by `distances.sort(key=lambda x: x[1])` (line 58). -/
def distLe (x y : String × ℝ) : Prop := x.2 ≤ y.2

noncomputable instance : DecidableRel distLe :=
  fun x y => Classical.propDecidable (distLe x y)

instance : IsTotal (String × ℝ) distLe := ⟨fun x y => le_total x.2 y.2⟩

instance : IsTrans (String × ℝ) distLe := ⟨fun _ _ _ h h2 => le_trans h h2⟩

/-- `compute_knn_relationships` (dual_layout.py lines 18–63): for every
concept with a non-zero-norm vector, sort the candidate `(other, dist)` pairs
ascending by distance and keep the first `k`, emitting `(concept, other, dist)`
triples. -/
noncomputable def compute_knn_relationships (emb : Emb) (k : ℕ) :
    List (String × String × ℝ) :=
  emb.flatMap fun p =>
    if npNormL p.2 = 0 then []
    else
      ((List.insertionSort distLe (candidates emb p.1 p.2)).take k).map
        fun q => (p.1, q.1, q.2)

/-! ### `get_graph_layout_3d` (dual_layout.py lines 66–101) -/

/-- The canonical key of an undirected networkx edge `{u, v}`. -/
def ekey (u v : String) : String × String := if strLEb u v then (u, v) else (v, u)

/-- A networkx `Graph` as far as this pipeline observes it: the node list in
insertion order plus the weight attribute of each undirected edge. -/
structure NXGraph where
  nodes : List String
  weight : String × String → Option ℝ

/-- `G.add_edge` node bookkeeping: a new endpoint is appended. -/
def addNode (ns : List String) (n : String) : List String :=
  if n ∈ ns then ns else ns ++ [n]

/-- `G.add_edge(source, target, weight=w)`: updates the weight of the
undirected edge (last write wins) and inserts missing endpoints. -/
noncomputable def addEdge (G : NXGraph) (u v : String) (w : ℝ) : NXGraph where
  nodes := addNode (addNode G.nodes u) v
  weight := fun p => if p = ekey u v then some w else G.weight p

def emptyGraph : NXGraph := ⟨[], fun _ => none⟩

/-- The graph-building loop of `get_graph_layout_3d` (lines 84–92): keep only
triples whose endpoints are both embedding keys and give each such edge the
weight `1 / (distance + 0.1) ** 2`. -/
noncomputable def buildGraph (emb : Emb) (rels : List (String × String × ℝ)) :
    NXGraph :=
  rels.foldl
    (fun G r =>
      if r.1 ∈ keys emb ∧ r.2.1 ∈ keys emb then
        addEdge G r.1 r.2.1 (1 / (r.2.2 + 0.1) ^ 2)
      else G)
    emptyGraph

/-- The type of `nx.spring_layout(G, dim, k, iterations, seed)`: a fixed
deterministic function of the graph, dimension, spring constant, iteration
count and seed (networkx documents determinism for a fixed integer seed). -/
abbrev SpringFn := NXGraph → ℕ → ℝ → ℕ → ℕ → List (String × Vec3)

/-- `get_graph_layout_3d` (lines 66–101), parameterized by the spring-layout
engine: build the weighted graph, run the engine, scale coordinates by 10.
(The `astype(np.float32)` cast is the identity in the real-number model.) -/
noncomputable def get_graph_layout_3d (springFn : SpringFn) (emb : Emb)
    (rels : List (String × String × ℝ)) (spring_k : ℝ)
    (iterations seed : ℕ) : List (String × Vec3) :=
  let G := buildGraph emb rels
  let pos := springFn G 3 spring_k iterations seed
  pos.map fun p => (p.1, (10 : ℝ) • p.2)

/-! ### `apply_drift_amplification` (dual_layout.py lines 203–233) -/

/-- `apply_drift_amplification`: iterate over the keys of `aligned_human`;
look up each key in `aligned_ai` (an absent key raises `KeyError`, modelled
by `none`) and emit `h_pos + (a_pos - h_pos) * factor`. -/
noncomputable def apply_drift_amplification :
    Coords → Coords → ℝ → Option Coords
  | [], _, _ => some []
  | (c, hp) :: rest, a, f =>
    match List.lookup c a with
    | none => none
    | some ap =>
      (apply_drift_amplification rest a f).map
        fun out => (c, hp + f • (ap - hp)) :: out

/-! ### `align_layouts_procrustes` (dual_layout.py lines 104–200) -/

abbrev Mat3 := Matrix (Fin 3) (Fin 3) ℝ

/-- `sorted(set(human_coords.keys()) & set(ai_coords.keys()))` (line 124). -/
def shared_concepts (h a : Coords) : List String :=
  sortStrings (((keys h).filter (fun c => c ∈ keys a)).dedup)

/-- `np.array([coords[c] for c in shared_concepts])`: the N×3 matrix as a
list of rows (every `c` drawn from the shared keys, so the lookup defaults
are never exercised). -/
noncomputable def rowsOf (coords : Coords) (sc : List String) : List Vec3 :=
  sc.map fun c => (List.lookup c coords).getD 0

/-- Sum of a list of 3-vectors. -/
noncomputable def vsum (m : List Vec3) : Vec3 := m.foldr (· + ·) 0

/-- `np.mean(matrix, axis=0)`. -/
noncomputable def colMean (m : List Vec3) : Vec3 := (m.length : ℝ)⁻¹ • vsum m

/-- `matrix - np.mean(matrix, axis=0)`. -/
noncomputable def centerRows (m : List Vec3) : List Vec3 :=
  m.map fun v => v - colMean m

/-- Squared Frobenius norm of an N×3 matrix. -/
noncomputable def frobSq (m : List Vec3) : ℝ := (m.map sqNorm3).sum

/-- `np.linalg.norm(matrix)` (Frobenius norm). -/
noncomputable def frobNorm (m : List Vec3) : ℝ := Real.sqrt (frobSq m)

/-- All 3N entries of an N×3 matrix, row-major (numpy flattening). -/
noncomputable def entries (m : List Vec3) : List ℝ :=
  m.flatMap fun v => [v 0, v 1, v 2]

/-- Mean of a list of reals. -/
noncomputable def listMean (l : List ℝ) : ℝ := l.sum / l.length

/-- `np.var` over all entries of an N×3 matrix. -/
noncomputable def npVar (m : List Vec3) : ℝ :=
  ((entries m).map fun x => (x - listMean (entries m)) ^ 2).sum /
    (entries m).length

/-- `np.std` over all entries of an N×3 matrix. -/
noncomputable def npStd (m : List Vec3) : ℝ := Real.sqrt (npVar m)

/-- Row-wise scaling `c * matrix`. -/
noncomputable def smulRows (c : ℝ) (m : List Vec3) : List Vec3 :=
  m.map fun v => c • v

/-- `matrix @ R` applied row-wise (each row is a row vector). -/
noncomputable def applyRot (m : List Vec3) (R : Mat3) : List Vec3 :=
  m.map fun v => Matrix.vecMul v R

/-- `np.sum((m1 - m2) ** 2)` for two N×3 matrices of equal length. -/
noncomputable def sumSqDiff (m1 m2 : List Vec3) : ℝ :=
  ((m1.zip m2).map fun p => sqNorm3 (p.1 - p.2)).sum

/-- The standardization step of `scipy.spatial.procrustes`: translate to
centroid zero and rescale to unit Frobenius norm. -/
noncomputable def standardize (m : List Vec3) : List Vec3 :=
  smulRows (frobNorm (centerRows m))⁻¹ (centerRows m)

/-- The residual `np.sum((mtx1 - (mtx2 @ R.T) * s) ** 2)` computed by
`scipy.spatial.procrustes` from the standardized matrices `m1`, `m2` and the
orthogonal transform `(R, s)` it selected; this is the `disparity` it
returns. -/
noncomputable def procrustesResidual (m1 m2 : List Vec3) (R : Mat3) (s : ℝ) :
    ℝ :=
  sumSqDiff m1 (smulRows s (applyRot m2 R.transpose))

/-- Orthogonality (`scipy.linalg.orthogonal_procrustes` returns an orthogonal
matrix, reflections included). -/
def IsOrtho (R : Mat3) : Prop := R * R.transpose = 1

/-- Modelled from the scipy documentation of `scipy.spatial.procrustes` /
`scipy.linalg.orthogonal_procrustes` (external library, not part of this
repository): the returned rotation `R` and scale `s` are orthogonal and
minimize the squared residual between the standardized matrices over all
orthogonal transforms and scalings. -/
def IsProcrustesOutput (m1 m2 : List Vec3) (R : Mat3) (s : ℝ) : Prop :=
  IsOrtho R ∧
    ∀ T t, IsOrtho T →
      procrustesResidual m1 m2 R s ≤ procrustesResidual m1 m2 T t

/-- `IsProcrustesOutput` lifted to the inputs of `align_layouts_procrustes`
(contract on the standardized restricted matrices of the constrained
branch). -/
def IsScipyRS (h a : Coords) (R : Mat3) (s : ℝ) : Prop :=
  IsProcrustesOutput
    (standardize (rowsOf h (shared_concepts h a)))
    (standardize (rowsOf a (shared_concepts h a))) R s

/-- `align_layouts_procrustes` (dual_layout.py lines 104–200).

`R` is the orthogonal matrix produced by the active branch's SVD step
(`np.linalg.svd` at line 148 for the authentic branch, the one inside
`scipy.spatial.procrustes` at line 181 for the constrained branch) and `s`
the scipy scale; both are parameters of the model because LAPACK is outside
the repository.  Errors: the explicit `ValueError` at line 127 for fewer
than 3 shared concepts, and the `ValueError` scipy raises when a centered
input matrix has zero Frobenius norm. -/
noncomputable def align_layouts_procrustes (R : Mat3) (s : ℝ)
    (human_coords ai_coords : Coords) (preserve_scale : Bool) :
    Except String (Coords × Coords × ℝ) :=
  let shared := shared_concepts human_coords ai_coords
  if shared.length < 3 then
    .error "Need at least 3 shared concepts"
  else
    let human_matrix := rowsOf human_coords shared
    let ai_matrix := rowsOf ai_coords shared
    if preserve_scale then
      let human_centered := centerRows human_matrix
      let ai_centered := centerRows ai_matrix
      let ai_rotated := applyRot ai_centered R
      let disparity :=
        Real.sqrt (sumSqDiff human_centered ai_rotated / shared.length)
      let scale_factor := 5 / npStd human_centered
      let mtx1 := smulRows scale_factor human_centered
      let mtx2 := smulRows scale_factor ai_rotated
      .ok (shared.zip mtx1, shared.zip mtx2, disparity)
    else
      let human_centered := centerRows human_matrix
      let ai_centered := centerRows ai_matrix
      if frobNorm human_centered = 0 ∨ frobNorm ai_centered = 0 then
        .error "Input matrices must contain more than one unique point"
      else
        let m1 := standardize human_matrix
        let m2 := standardize ai_matrix
        let m2r := smulRows s (applyRot m2 R.transpose)
        let disparity := procrustesResidual m1 m2 R s
        let human_variance := npVar m1
        let ai_variance := npVar m2r
        let m2v :=
          if ai_variance > 0 then
            smulRows (Real.sqrt (human_variance / ai_variance)) m2r
          else m2r
        let mtx1 := smulRows 50 m1
        let mtx2 := smulRows 50 m2v
        .ok (shared.zip mtx1, shared.zip mtx2, disparity)

/-! ### The merge step of `generate_dual_layout` (dual_layout.py lines 395–430) -/

/-- One entry of the final node list built at lines 418–430. -/
structure DualNode where
  id : String
  pos_human : Vec3
  pos_ai : Vec3
  pos_human_organic : Vec3
  pos_ai_organic : Vec3
  drift : ℝ
  drift_sphere : ℝ
  drift_organic : ℝ
  avgDistance : ℝ
  connections : ℤ

/-- Python `x or default` on an optional float (`float(avg_dist or 0.5)`):
`None` and `0.0` are both falsy. -/
noncomputable def pyOrFloat (x : Option ℝ) (d : ℝ) : ℝ :=
  match x with
  | none => d
  | some v => if v = 0 then d else v

/-- Python `int(conn_count or 0)`. -/
def pyOrInt (x : Option ℤ) (d : ℤ) : ℤ :=
  match x with
  | none => d
  | some v => if v = 0 then d else v

/-- The body of the merge loop for one concept (lines 398–430): sphere-mode
positions are mandatory dict lookups (`KeyError` modelled by `none`), the
organic positions fall back to the sphere ones via `.get(concept, default)`,
and the aggregate metadata comes from the external store `meta`. -/
noncomputable def mkDualNode (meta : String → Option ℝ × Option ℤ)
    (hs as ho ao : Coords) (c : String) : Option DualNode :=
  match List.lookup c hs, List.lookup c as with
  | some h_pos_sphere, some a_pos_sphere =>
    let h_pos_organic := (List.lookup c ho).getD h_pos_sphere
    let a_pos_organic := (List.lookup c ao).getD a_pos_sphere
    some
      { id := c
        pos_human := h_pos_sphere
        pos_ai := a_pos_sphere
        pos_human_organic := h_pos_organic
        pos_ai_organic := a_pos_organic
        drift := norm3 (h_pos_organic - a_pos_organic)
        drift_sphere := norm3 (h_pos_sphere - a_pos_sphere)
        drift_organic := norm3 (h_pos_organic - a_pos_organic)
        avgDistance := pyOrFloat (meta c).1 0.5
        connections := pyOrInt (meta c).2 0 }
  | _, _ => none

/-- The merge loop over a list of concepts: stops with `none` at the first
concept whose sphere-mode lookup raises. -/
noncomputable def mergeLoop (meta : String → Option ℝ × Option ℤ)
    (hs as ho ao : Coords) : List String → Option (List DualNode)
  | [] => some []
  | c :: cs =>
    match mkDualNode meta hs as ho ao c with
    | none => none
    | some n => (mergeLoop meta hs as ho ao cs).map fun ns => n :: ns

/-- The merge step of `generate_dual_layout` (lines 395–430): iterate over
`sorted(aligned_human_sphere.keys())` only, building one node per such
concept.  (The final sort at line 433 is outside this step.) -/
noncomputable def mergeNodes (meta : String → Option ℝ × Option ℤ)
    (hs as ho ao : Coords) : Option (List DualNode) :=
  mergeLoop meta hs as ho ao (sortStrings (keys hs))

/-! ### Association-list lemmas -/

theorem lookup_isSome_iff {α : Type} (c : String) (l : List (String × α)) :
    (List.lookup c l).isSome ↔ c ∈ keys l := by
  induction l with
  | nil => simp [keys]
  | cons p t ih =>
    obtain ⟨k, v⟩ := p
    by_cases hck : c = k
    · subst hck
      simp [List.lookup, keys]
    · simp [List.lookup, keys, hck, ih, beq_false_of_ne hck]

theorem lookup_eq_none_iff {α : Type} (c : String) (l : List (String × α)) :
    List.lookup c l = none ↔ c ∉ keys l := by
  rw [← lookup_isSome_iff, Option.not_isSome_iff_eq_none]

theorem keys_nodup_lookup_unique {α : Type} {l : List (String × α)}
    (hnd : (keys l).Nodup) {c : String} {x y : α}
    (hx : (c, x) ∈ l) (hy : (c, y) ∈ l) : x = y := by
  induction l with
  | nil => simp at hx
  | cons p t ih =>
    obtain ⟨k, v⟩ := p
    simp only [keys, List.map_cons, List.nodup_cons] at hnd
    rcases List.mem_cons.mp hx with hx0 | hx1 <;>
      rcases List.mem_cons.mp hy with hy0 | hy1
    · injection hx0 with h1 h2
      injection hy0 with h3 h4
      rw [h2, h4]
    · injection hx0 with h1 h2
      have hmem : c ∈ t.map Prod.fst := List.mem_map_of_mem Prod.fst hy1
      rw [h1] at hmem
      exact absurd hmem hnd.1
    · injection hy0 with h1 h2
      have hmem : c ∈ t.map Prod.fst := List.mem_map_of_mem Prod.fst hx1
      rw [h1] at hmem
      exact absurd hmem hnd.1
    · exact ih hnd.2 hx1 hy1

/-! ### Claim C10: totality of `apply_drift_amplification` -/

/-- Claim C10: `apply_drift_amplification` succeeds exactly when every key of
`aligned_human` is also a key of `aligned_ai`; a key present only in
`aligned_human` makes the lookup at line 224 raise `KeyError` (`none`), so
under the subset precondition the error branch is unreachable. -/
theorem drift_amplification_total_iff (h a : Coords) (f : ℝ) :
    (apply_drift_amplification h a f).isSome ↔ ∀ c ∈ keys h, c ∈ keys a := by
  induction h with
  | nil => simp [apply_drift_amplification, keys]
  | cons p t ih =>
    obtain ⟨c, hp⟩ := p
    rw [apply_drift_amplification]
    rcases hlk : List.lookup c a with _ | ap
    · have hna : c ∉ keys a := (lookup_eq_none_iff c a).mp hlk
      simp only [Option.isSome_none, Bool.false_eq_true, false_iff]
      intro hall
      exact hna (hall c (by simp [keys]))
    · have hca : c ∈ keys a := by
        rw [← lookup_isSome_iff, hlk]
        rfl
      rw [Option.isSome_map', ih]
      constructor
      · intro hall x hx
        rcases (by simpa [keys] using hx : x = c ∨ x ∈ keys t) with rfl | hx1
        · exact hca
        · exact hall x hx1
      · intro hall x hx
        exact hall x (by simp [keys]; exact Or.inr (by simpa [keys] using hx))

/-- Witness for C10 at a concrete input: with equal key sets the
amplification succeeds. -/
theorem drift_amplification_total_iff_witness :
    (apply_drift_amplification [("a", (0 : Vec3))] [("a", (0 : Vec3))]
      2).isSome := by
  rw [drift_amplification_total_iff]
  intro c hc
  exact hc

/-! ### Claim C8: the drift-amplification formula -/

/-- Claim C8: under the subset precondition, `apply_drift_amplification`
returns a map keyed exactly by `aligned_human`'s keys whose value at each id
is `h_pos + factor * (ai_pos - h_pos)`; `factor = 1` reproduces
`aligned_ai`'s value and `factor = 2` gives `h + 2*(a-h)`. -/
theorem drift_amplification_formula (h a : Coords) (f : ℝ)
    (hsub : ∀ c ∈ keys h, c ∈ keys a) :
    ∃ out, apply_drift_amplification h a f = some out ∧
      keys out = keys h ∧
      ∀ c hp ap, List.lookup c h = some hp → List.lookup c a = some ap →
        List.lookup c out = some (hp + f • (ap - hp)) ∧
        (f = 1 → hp + f • (ap - hp) = ap) ∧
        (f = 2 → hp + f • (ap - hp) = hp + (2 : ℝ) • (ap - hp)) := by
  induction h with
  | nil =>
    refine ⟨[], rfl, rfl, ?_⟩
    intro c hp ap hlk
    simp [List.lookup] at hlk
  | cons p t ih =>
    obtain ⟨k, v⟩ := p
    have hk : k ∈ keys a := hsub k (by simp [keys])
    obtain ⟨apk, hapk⟩ := Option.isSome_iff_exists.mp
      ((lookup_isSome_iff k a).mpr hk)
    obtain ⟨out, hout, hkeys, hval⟩ :=
      ih fun c hc => hsub c (by simp [keys] at hc ⊢; exact Or.inr hc)
    refine ⟨(k, v + f • (apk - v)) :: out, ?_, ?_, ?_⟩
    · rw [apply_drift_amplification, hapk, hout]
      rfl
    · simp [keys] at hkeys ⊢
      exact hkeys
    · intro c hp ap hlkh hlka
      have hf1 : f = 1 → hp + f • (ap - hp) = ap := by
        rintro rfl
        simp
      have hf2 : f = 2 → hp + f • (ap - hp) = hp + (2 : ℝ) • (ap - hp) := by
        rintro rfl
        rfl
      by_cases hck : c = k
      · subst hck
        rw [List.lookup_cons, beq_self_eq_true] at hlkh
        rw [hapk] at hlka
        obtain rfl : v = hp := by injection hlkh
        obtain rfl : apk = ap := by injection hlka
        exact ⟨by rw [List.lookup_cons, beq_self_eq_true], hf1, hf2⟩
      · rw [List.lookup_cons, beq_false_of_ne hck] at hlkh
        obtain ⟨h1, _, _⟩ := hval c hp ap hlkh hlka
        refine ⟨?_, hf1, hf2⟩
        rw [List.lookup_cons, beq_false_of_ne hck]
        exact h1

/-- Witness for C8: a concrete one-entry instance with factor 2. -/
theorem drift_amplification_formula_witness :
    (∀ c ∈ keys [("a", (0 : Vec3))], c ∈ keys [("a", (1 : Vec3))]) ∧
      ∃ out, apply_drift_amplification [("a", (0 : Vec3))]
          [("a", (1 : Vec3))] 2 = some out ∧
        keys out = keys [("a", (0 : Vec3))] ∧
        ∀ c hp ap,
          List.lookup c [("a", (0 : Vec3))] = some hp →
          List.lookup c [("a", (1 : Vec3))] = some ap →
          List.lookup c out = some (hp + (2 : ℝ) • (ap - hp)) ∧
          ((2 : ℝ) = 1 → hp + (2 : ℝ) • (ap - hp) = ap) ∧
          ((2 : ℝ) = 2 → hp + (2 : ℝ) • (ap - hp) = hp + (2 : ℝ) • (ap - hp)) :=
  ⟨fun _ hc => hc,
    drift_amplification_formula [("a", (0 : Vec3))] [("a", (1 : Vec3))] 2
      fun _ hc => hc⟩

/-! ### Claim C9: determinism of `get_graph_layout_3d` -/

/-- Claim C9: `get_graph_layout_3d` is a deterministic function of its
inputs and seed.  The spring engine (`nx.spring_layout`) is a fixed
deterministic function of the graph, dimension, spring constant, iteration
count, and seed, so the layout result depends on the embeddings and
relationship list only through the graph they build: two runs whose inputs
build the same graph — in particular, two runs on identical inputs — return
identical coordinate maps. -/
theorem layout_deterministic (springFn : SpringFn) (e1 e2 : Emb)
    (r1 r2 : List (String × String × ℝ)) (spring_k : ℝ) (iterations seed : ℕ)
    (hG : buildGraph e1 r1 = buildGraph e2 r2) :
    get_graph_layout_3d springFn e1 r1 spring_k iterations seed =
      get_graph_layout_3d springFn e2 r2 spring_k iterations seed := by
  unfold get_graph_layout_3d
  rw [hG]

/-- Witness for C9: two runs on literally identical inputs coincide. -/
theorem layout_deterministic_witness :
    get_graph_layout_3d (fun _ _ _ _ _ => []) [("a", [1])] [("a", "a", 1)]
        2 150 42 =
      get_graph_layout_3d (fun _ _ _ _ _ => []) [("a", [1])] [("a", "a", 1)]
        2 150 42 :=
  layout_deterministic (fun _ _ _ _ _ => []) [("a", [1])] [("a", [1])]
    [("a", "a", 1)] [("a", "a", 1)] 2 150 42 rfl

/-! ### Claim C7: the graph built by `get_graph_layout_3d` -/

theorem buildGraph_append (emb : Emb) (rels : List (String × String × ℝ))
    (r : String × String × ℝ) :
    buildGraph emb (rels ++ [r]) =
      if r.1 ∈ keys emb ∧ r.2.1 ∈ keys emb then
        addEdge (buildGraph emb rels) r.1 r.2.1 (1 / (r.2.2 + 0.1) ^ 2)
      else buildGraph emb rels := by
  unfold buildGraph
  rw [List.foldl_append]
  rfl

/-- Claim C7: the graph of `get_graph_layout_3d` has an edge exactly for the
unordered endpoint pairs of relationship triples whose source and target are
both embedding keys, and every retained edge carries the weight
`1 / (distance + 0.1) ** 2` of such a triple. -/
theorem buildGraph_edges (emb : Emb) (rels : List (String × String × ℝ)) :
    (∀ p, ((buildGraph emb rels).weight p).isSome ↔
        ∃ s t d, (s, t, d) ∈ rels ∧ s ∈ keys emb ∧ t ∈ keys emb ∧
          p = ekey s t) ∧
      ∀ p w, (buildGraph emb rels).weight p = some w →
        ∃ s t d, (s, t, d) ∈ rels ∧ s ∈ keys emb ∧ t ∈ keys emb ∧
          p = ekey s t ∧ w = 1 / (d + 0.1) ^ 2 := by
  induction rels using List.reverseRecOn with
  | nil =>
    constructor
    · intro p
      simp [buildGraph, emptyGraph]
    · intro p w hw
      simp [buildGraph, emptyGraph] at hw
  | append_singleton rels r ih =>
    obtain ⟨s0, t0, d0⟩ := r
    rw [buildGraph_append]
    by_cases hv : s0 ∈ keys emb ∧ t0 ∈ keys emb
    · rw [if_pos hv]
      constructor
      · intro p
        by_cases hp : p = ekey s0 t0
        · subst hp
          simp only [addEdge, eq_self_iff_true, if_true, Option.isSome_some, true_iff]
          exact ⟨s0, t0, d0, by simp, hv.1, hv.2, rfl⟩
        · simp only [addEdge, if_neg hp]
          rw [(ih).1 p]
          constructor
          · rintro ⟨s, t, d, hmem, hs, ht, rfl⟩
            exact ⟨s, t, d, by simp [hmem], hs, ht, rfl⟩
          · rintro ⟨s, t, d, hmem, hs, ht, rfl⟩
            rcases List.mem_append.mp hmem with hmem1 | hmem2
            · exact ⟨s, t, d, hmem1, hs, ht, rfl⟩
            · exfalso
              apply hp
              have : (s, t, d) = (s0, t0, d0) := by simpa using hmem2
              obtain ⟨rfl, rfl, rfl⟩ := Prod.mk.injEq .. ▸ this
              rfl
      · intro p w hw
        by_cases hp : p = ekey s0 t0
        · subst hp
          simp only [addEdge, eq_self_iff_true, if_true, Option.some.injEq] at hw
          exact ⟨s0, t0, d0, by simp, hv.1, hv.2, rfl, hw.symm⟩
        · simp only [addEdge, if_neg hp] at hw
          obtain ⟨s, t, d, hmem, hs, ht, hpe, hwv⟩ := (ih).2 p w hw
          exact ⟨s, t, d, by simp [hmem], hs, ht, hpe, hwv⟩
    · rw [if_neg hv]
      constructor
      · intro p
        rw [(ih).1 p]
        constructor
        · rintro ⟨s, t, d, hmem, hs, ht, rfl⟩
          exact ⟨s, t, d, by simp [hmem], hs, ht, rfl⟩
        · rintro ⟨s, t, d, hmem, hs, ht, rfl⟩
          rcases List.mem_append.mp hmem with hmem1 | hmem2
          · exact ⟨s, t, d, hmem1, hs, ht, rfl⟩
          · exfalso
            have : (s, t, d) = (s0, t0, d0) := by simpa using hmem2
            obtain ⟨rfl, rfl, rfl⟩ := Prod.mk.injEq .. ▸ this
            exact hv ⟨hs, ht⟩
      · intro p w hw
        obtain ⟨s, t, d, hmem, hs, ht, hpe, hwv⟩ := (ih).2 p w hw
        exact ⟨s, t, d, by simp [hmem], hs, ht, hpe, hwv⟩

/-- Witness for C7 at a concrete graph: a triple with an unknown endpoint is
skipped while a valid triple is retained. -/
theorem buildGraph_edges_witness :
    ¬ ((buildGraph [("a", [1]), ("b", [2])]
        [("a", "x", 1), ("a", "b", 1)]).weight (ekey "a" "x")).isSome ∧
      ((buildGraph [("a", [1]), ("b", [2])]
        [("a", "x", 1), ("a", "b", 1)]).weight (ekey "a" "b")).isSome := by
  obtain ⟨hiff, _⟩ :=
    buildGraph_edges [("a", [1]), ("b", [2])] [("a", "x", 1), ("a", "b", 1)]
  constructor
  · rw [hiff]
    rintro ⟨s, t, d, hmem, hs, ht, hpe⟩
    have hst : (s = "a" ∧ t = "x" ∧ d = 1) ∨ (s = "a" ∧ t = "b" ∧ d = 1) := by
      rcases List.mem_cons.mp hmem with h1 | h2
      · left
        have := Prod.mk.injEq .. ▸ h1
        exact ⟨this.1, (Prod.mk.injEq .. ▸ this.2).1, (Prod.mk.injEq .. ▸ this.2).2⟩
      · right
        have h2m : (s, t, d) = ("a", "b", 1) := by simpa using h2
        have := Prod.mk.injEq .. ▸ h2m
        exact ⟨this.1, (Prod.mk.injEq .. ▸ this.2).1, (Prod.mk.injEq .. ▸ this.2).2⟩
    rcases hst with ⟨rfl, rfl, rfl⟩ | ⟨rfl, rfl, rfl⟩
    · simp [keys] at ht
    · exact absurd hpe (by decide)
  · rw [hiff]
    exact ⟨"a", "b", 1, by simp, by simp [keys], by simp [keys], rfl⟩

/-! ### Alignment support lemmas -/

theorem rowsOf_length (c : Coords) (sc : List String) :
    (rowsOf c sc).length = sc.length := List.length_map _ _

theorem centerRows_length (m : List Vec3) :
    (centerRows m).length = m.length := List.length_map _ _

theorem smulRows_length (x : ℝ) (m : List Vec3) :
    (smulRows x m).length = m.length := List.length_map _ _

theorem applyRot_length (m : List Vec3) (R : Mat3) :
    (applyRot m R).length = m.length := List.length_map _ _

theorem standardize_length (m : List Vec3) :
    (standardize m).length = m.length := by
  rw [standardize, smulRows_length, centerRows_length]

theorem mem_shared_concepts {c : String} {h a : Coords} :
    c ∈ shared_concepts h a ↔ c ∈ keys h ∧ c ∈ keys a := by
  rw [shared_concepts, mem_sortStrings, List.mem_dedup, List.mem_filter]
  simp

theorem keys_zip_of_length {sc : List String} {m : List Vec3}
    (hlen : sc.length ≤ m.length) : keys (sc.zip m) = sc :=
  List.map_fst_zip sc m hlen

/-! ### Claim C3: aligned outputs are keyed by the sorted intersection -/

/-- Claim C3: whenever `align_layouts_procrustes` returns, both returned
dictionaries are keyed by exactly the sorted intersection of the input key
sets (so they have identical key sets, and an id present in only one input
is absent from both outputs). -/
theorem align_keys_sorted_intersection (R : Mat3) (s : ℝ) (h a : Coords)
    (ps : Bool) (hd ad : Coords) (d : ℝ)
    (hok : align_layouts_procrustes R s h a ps = .ok (hd, ad, d)) :
    keys hd = shared_concepts h a ∧ keys ad = shared_concepts h a ∧
      ∀ x, x ∈ keys hd ↔ x ∈ keys h ∧ x ∈ keys a := by
  have hlen1 : (shared_concepts h a).length ≤
      (rowsOf h (shared_concepts h a)).length := by
    rw [rowsOf_length]
  have hlen2 : (shared_concepts h a).length ≤
      (rowsOf a (shared_concepts h a)).length := by
    rw [rowsOf_length]
  simp only [align_layouts_procrustes] at hok
  split at hok
  · exact absurd hok (by simp)
  · split at hok
    · injection hok with hok
      injection hok with h1 hok2
      injection hok2 with h2 h3
      subst h1
      subst h2
      refine ⟨?_, ?_, ?_⟩
      · rw [keys_zip_of_length]
        rw [smulRows_length, centerRows_length, rowsOf_length]
      · rw [keys_zip_of_length]
        rw [smulRows_length, applyRot_length, centerRows_length, rowsOf_length]
      · intro x
        rw [keys_zip_of_length
          (by rw [smulRows_length, centerRows_length, rowsOf_length])]
        exact mem_shared_concepts
    · split at hok
      · exact absurd hok (by simp)
      · injection hok with hok
        injection hok with h1 hok2
        injection hok2 with h2 h3
        subst h1
        subst h2
        refine ⟨?_, ?_, ?_⟩
        · rw [keys_zip_of_length]
          rw [smulRows_length, standardize_length, rowsOf_length]
        · rw [keys_zip_of_length]
          rw [smulRows_length]
          split <;>
            simp [smulRows_length, applyRot_length, standardize_length,
              rowsOf_length]
        · intro x
          rw [keys_zip_of_length
            (by rw [smulRows_length, standardize_length, rowsOf_length])]
          exact mem_shared_concepts

/-! ### Branch-unfolding helpers for `align_layouts_procrustes` -/

theorem align_three_shared_aux :
    ¬ (shared_concepts
        [("a", (0 : Vec3)), ("b", (0 : Vec3)), ("c", (0 : Vec3))]
        [("a", (0 : Vec3)), ("b", (0 : Vec3)), ("c", (0 : Vec3))]).length < 3 :=
  by decide

theorem align_authentic_eq (R : Mat3) (s : ℝ) (h a : Coords)
    (h3 : ¬ (shared_concepts h a).length < 3) :
    align_layouts_procrustes R s h a true =
      .ok ((shared_concepts h a).zip
            (smulRows (5 / npStd (centerRows (rowsOf h (shared_concepts h a))))
              (centerRows (rowsOf h (shared_concepts h a)))),
          (shared_concepts h a).zip
            (smulRows (5 / npStd (centerRows (rowsOf h (shared_concepts h a))))
              (applyRot (centerRows (rowsOf a (shared_concepts h a))) R)),
          Real.sqrt (sumSqDiff (centerRows (rowsOf h (shared_concepts h a)))
            (applyRot (centerRows (rowsOf a (shared_concepts h a))) R) /
            (shared_concepts h a).length)) := by
  unfold align_layouts_procrustes
  rw [if_neg h3]
  rfl

theorem align_constrained_eq (R : Mat3) (s : ℝ) (h a : Coords)
    (h3 : ¬ (shared_concepts h a).length < 3)
    (hn : ¬ (frobNorm (centerRows (rowsOf h (shared_concepts h a))) = 0 ∨
        frobNorm (centerRows (rowsOf a (shared_concepts h a))) = 0)) :
    align_layouts_procrustes R s h a false =
      .ok ((shared_concepts h a).zip
            (smulRows 50 (standardize (rowsOf h (shared_concepts h a)))),
          (shared_concepts h a).zip
            (smulRows 50
              (if npVar (smulRows s (applyRot
                    (standardize (rowsOf a (shared_concepts h a)))
                    R.transpose)) > 0 then
                smulRows
                  (Real.sqrt (npVar (standardize (rowsOf h (shared_concepts h a))) /
                    npVar (smulRows s (applyRot
                      (standardize (rowsOf a (shared_concepts h a)))
                      R.transpose))))
                  (smulRows s (applyRot
                    (standardize (rowsOf a (shared_concepts h a))) R.transpose))
              else
                smulRows s (applyRot
                  (standardize (rowsOf a (shared_concepts h a))) R.transpose))),
          procrustesResidual (standardize (rowsOf h (shared_concepts h a)))
            (standardize (rowsOf a (shared_concepts h a))) R s) := by
  unfold align_layouts_procrustes
  rw [if_neg h3]
  simp only [Bool.false_eq_true, if_false]
  rw [if_neg hn]

/-- Witness for C3: a successful concrete alignment whose outputs are keyed
by the shared sorted intersection. -/
theorem align_keys_sorted_intersection_witness :
    ∃ hd ad d,
      align_layouts_procrustes 1 0
          [("a", (0 : Vec3)), ("b", (0 : Vec3)), ("c", (0 : Vec3))]
          [("a", (0 : Vec3)), ("b", (0 : Vec3)), ("c", (0 : Vec3))] true =
        .ok (hd, ad, d) ∧
      keys hd = shared_concepts
        [("a", (0 : Vec3)), ("b", (0 : Vec3)), ("c", (0 : Vec3))]
        [("a", (0 : Vec3)), ("b", (0 : Vec3)), ("c", (0 : Vec3))] ∧
      keys ad = shared_concepts
        [("a", (0 : Vec3)), ("b", (0 : Vec3)), ("c", (0 : Vec3))]
        [("a", (0 : Vec3)), ("b", (0 : Vec3)), ("c", (0 : Vec3))] := by
  have heq := align_authentic_eq 1 0
    [("a", (0 : Vec3)), ("b", (0 : Vec3)), ("c", (0 : Vec3))]
    [("a", (0 : Vec3)), ("b", (0 : Vec3)), ("c", (0 : Vec3))]
    align_three_shared_aux
  obtain ⟨k1, k2, _⟩ := align_keys_sorted_intersection 1 0
    [("a", (0 : Vec3)), ("b", (0 : Vec3)), ("c", (0 : Vec3))]
    [("a", (0 : Vec3)), ("b", (0 : Vec3)), ("c", (0 : Vec3))] true _ _ _ heq
  exact ⟨_, _, _, heq, k1, k2⟩

/-! ### Claim C1 (corrected): the two disparity formulas -/

/-- Claim C1 (amended): under the authentic policy the returned disparity is
`sqrt(sum of squared per-point residuals / point count)` as the claim states;
under the constrained policy it is the raw `scipy.spatial.procrustes`
disparity — the sum of squared residuals of the standardized point sets,
with no square root and no division by the point count. -/
theorem align_disparity_formulas (R : Mat3) (s : ℝ) (h a : Coords)
    (h3 : ¬ (shared_concepts h a).length < 3) :
    (∃ hd ad, align_layouts_procrustes R s h a true =
      .ok (hd, ad,
        Real.sqrt (sumSqDiff (centerRows (rowsOf h (shared_concepts h a)))
          (applyRot (centerRows (rowsOf a (shared_concepts h a))) R) /
          (shared_concepts h a).length))) ∧
    (¬ (frobNorm (centerRows (rowsOf h (shared_concepts h a))) = 0 ∨
        frobNorm (centerRows (rowsOf a (shared_concepts h a))) = 0) →
      ∃ hd ad, align_layouts_procrustes R s h a false =
        .ok (hd, ad,
          procrustesResidual (standardize (rowsOf h (shared_concepts h a)))
            (standardize (rowsOf a (shared_concepts h a))) R s)) :=
  ⟨⟨_, _, align_authentic_eq R s h a h3⟩,
    fun hn => ⟨_, _, align_constrained_eq R s h a h3 hn⟩⟩

/-- Witness for the amended C1 at a concrete input with 3 shared ids. -/
theorem align_disparity_formulas_witness :
    (¬ (shared_concepts [("a", (0 : Vec3)), ("b", (0 : Vec3)), ("c", (0 : Vec3))]
        [("a", (0 : Vec3)), ("b", (0 : Vec3)), ("c", (0 : Vec3))]).length < 3) ∧
      ∃ hd ad,
        align_layouts_procrustes 1 0
            [("a", (0 : Vec3)), ("b", (0 : Vec3)), ("c", (0 : Vec3))]
            [("a", (0 : Vec3)), ("b", (0 : Vec3)), ("c", (0 : Vec3))] true =
          .ok (hd, ad,
            Real.sqrt (sumSqDiff
              (centerRows (rowsOf
                [("a", (0 : Vec3)), ("b", (0 : Vec3)), ("c", (0 : Vec3))]
                (shared_concepts
                  [("a", (0 : Vec3)), ("b", (0 : Vec3)), ("c", (0 : Vec3))]
                  [("a", (0 : Vec3)), ("b", (0 : Vec3)), ("c", (0 : Vec3))])))
              (applyRot (centerRows (rowsOf
                [("a", (0 : Vec3)), ("b", (0 : Vec3)), ("c", (0 : Vec3))]
                (shared_concepts
                  [("a", (0 : Vec3)), ("b", (0 : Vec3)), ("c", (0 : Vec3))]
                  [("a", (0 : Vec3)), ("b", (0 : Vec3)), ("c", (0 : Vec3))]))) 1) /
              (shared_concepts
                [("a", (0 : Vec3)), ("b", (0 : Vec3)), ("c", (0 : Vec3))]
                [("a", (0 : Vec3)), ("b", (0 : Vec3)), ("c", (0 : Vec3))]).length)) :=
  ⟨by decide,
    (align_disparity_formulas 1 0
      [("a", (0 : Vec3)), ("b", (0 : Vec3)), ("c", (0 : Vec3))]
      [("a", (0 : Vec3)), ("b", (0 : Vec3)), ("c", (0 : Vec3))]
      (by decide)).1⟩

/-! ### Claim C2 (corrected): when alignment fails -/

/-- Claim C2 (amended): `align_layouts_procrustes` fails when fewer than 3
identifiers are shared, but also — in constrained mode only — when either
restricted centered point set has zero Frobenius norm (all points identical),
because `scipy.spatial.procrustes` rejects such inputs; in all other cases
it succeeds.  When it fails, no aligned output is produced. -/
theorem align_error_iff (R : Mat3) (s : ℝ) (h a : Coords) (ps : Bool) :
    (∃ e, align_layouts_procrustes R s h a ps = .error e) ↔
      ((shared_concepts h a).length < 3 ∨
        (ps = false ∧
          (frobNorm (centerRows (rowsOf h (shared_concepts h a))) = 0 ∨
            frobNorm (centerRows (rowsOf a (shared_concepts h a))) = 0))) := by
  unfold align_layouts_procrustes
  by_cases h3 : (shared_concepts h a).length < 3
  · rw [if_pos h3]
    simp [h3]
  · rw [if_neg h3]
    cases ps
    · simp only [Bool.false_eq_true, if_false]
      by_cases hdeg :
          frobNorm (centerRows (rowsOf h (shared_concepts h a))) = 0 ∨
            frobNorm (centerRows (rowsOf a (shared_concepts h a))) = 0
      · rw [if_pos hdeg]
        simp [h3, hdeg]
      · rw [if_neg hdeg]
        simp [h3, hdeg]
    · simp [h3]

/-- Witness for the amended C2: with empty inputs (0 shared ids) alignment
fails. -/
theorem align_error_iff_witness :
    ∃ e, align_layouts_procrustes 1 0 ([] : Coords) ([] : Coords) false =
      .error e :=
  (align_error_iff 1 0 [] [] false).mpr (Or.inl (by decide))

theorem centerRows_three_const (v : Vec3) :
    centerRows [v, v, v] = [0, 0, 0] := by
  have hm : colMean [v, v, v] = v := by
    funext i
    show (3 : ℝ)⁻¹ * (v + (v + (v + 0))) i = v i
    simp only [Pi.add_apply, Pi.zero_apply]
    ring
  simp [centerRows, hm]

theorem frobNorm_three_zero : frobNorm [0, 0, 0] = 0 := by
  have : sqNorm3 0 = 0 := by
    simp [sqNorm3]
  simp [frobNorm, frobSq, this]

/-- Counterexample to C2 as stated: three shared identifiers whose human
positions all coincide — the overlap precondition holds, yet constrained
alignment fails (the scipy degenerate-input rejection). -/
theorem align_error_iff_counterexample :
    ¬ (shared_concepts [("a", ![1, 2, 3]), ("b", ![1, 2, 3]), ("c", ![1, 2, 3])]
        [("a", ![1, 2, 3]), ("b", ![1, 2, 3]), ("c", ![1, 2, 3])]).length < 3 ∧
      ∃ e, align_layouts_procrustes 1 0
          [("a", ![1, 2, 3]), ("b", ![1, 2, 3]), ("c", ![1, 2, 3])]
          [("a", ![1, 2, 3]), ("b", ![1, 2, 3]), ("c", ![1, 2, 3])] false =
        .error e := by
  have hsh : shared_concepts
      [("a", ![1, 2, 3]), ("b", ![1, 2, 3]), ("c", ![1, 2, 3])]
      [("a", ![1, 2, 3]), ("b", ![1, 2, 3]), ("c", ![1, 2, 3])] =
      ["a", "b", "c"] := by rfl
  have hrows : rowsOf
      [("a", ![1, 2, 3]), ("b", ![1, 2, 3]), ("c", ![1, 2, 3])]
      ["a", "b", "c"] = [![1, 2, 3], ![1, 2, 3], ![1, 2, 3]] := by rfl
  constructor
  · rw [hsh]
    norm_num
  · refine ⟨"Input matrices must contain more than one unique point", ?_⟩
    simp only [align_layouts_procrustes]
    rw [hsh, hrows, centerRows_three_const, frobNorm_three_zero]
    rw [if_neg (by decide)]
    simp

/-! ### Claim C4: scale invariance of the constrained branch -/

/-- Uniform scaling of a coordinate dict by a constant. -/
noncomputable def scaleCoords (c : ℝ) (coords : Coords) : Coords :=
  coords.map fun p => (p.1, c • p.2)

theorem keys_scaleCoords (c : ℝ) (a : Coords) :
    keys (scaleCoords c a) = keys a := by
  simp [keys, scaleCoords]

theorem lookup_scaleCoords (c : ℝ) (a : Coords) (k : String) :
    List.lookup k (scaleCoords c a) = (List.lookup k a).map (c • ·) := by
  induction a with
  | nil => simp [scaleCoords]
  | cons p t ih =>
    obtain ⟨q, v⟩ := p
    by_cases hk : k = q
    · subst hk
      simp [scaleCoords, List.lookup_cons]
    · simp [scaleCoords, List.lookup_cons, beq_false_of_ne hk] at ih ⊢
      simpa [scaleCoords] using ih

theorem rowsOf_scaleCoords (c : ℝ) (a : Coords) (sc : List String) :
    rowsOf (scaleCoords c a) sc = smulRows c (rowsOf a sc) := by
  simp only [rowsOf, smulRows, List.map_map]
  refine List.map_congr_left fun x _ => ?_
  simp only [Function.comp_apply, lookup_scaleCoords]
  cases List.lookup x a with
  | none => simp
  | some v => simp

theorem shared_scaleCoords (c : ℝ) (h a : Coords) :
    shared_concepts h (scaleCoords c a) = shared_concepts h a := by
  simp only [shared_concepts, keys_scaleCoords]

theorem sqNorm3_smul (c : ℝ) (v : Vec3) :
    sqNorm3 (c • v) = c ^ 2 * sqNorm3 v := by
  simp only [sqNorm3, Pi.smul_apply, smul_eq_mul]
  ring

theorem frobSq_smulRows (c : ℝ) (m : List Vec3) :
    frobSq (smulRows c m) = c ^ 2 * frobSq m := by
  induction m with
  | nil => simp [frobSq, smulRows]
  | cons v t ih =>
    simp only [frobSq, smulRows, List.map_cons, List.sum_cons] at ih ⊢
    rw [sqNorm3_smul, ih]
    ring

theorem frobNorm_smulRows {c : ℝ} (hc : 0 ≤ c) (m : List Vec3) :
    frobNorm (smulRows c m) = c * frobNorm m := by
  rw [frobNorm, frobNorm, frobSq_smulRows, Real.sqrt_mul (sq_nonneg c),
    Real.sqrt_sq hc]

theorem vsum_smulRows (c : ℝ) (m : List Vec3) :
    vsum (smulRows c m) = c • vsum m := by
  induction m with
  | nil => simp [vsum, smulRows]
  | cons v t ih =>
    simp only [vsum, smulRows, List.map_cons, List.foldr_cons] at ih ⊢
    rw [ih, smul_add]

theorem colMean_smulRows (c : ℝ) (m : List Vec3) :
    colMean (smulRows c m) = c • colMean m := by
  rw [colMean, colMean, vsum_smulRows, smulRows, List.length_map, smul_comm]

theorem centerRows_smulRows (c : ℝ) (m : List Vec3) :
    centerRows (smulRows c m) = smulRows c (centerRows m) := by
  rw [centerRows, centerRows, colMean_smulRows]
  simp only [smulRows, List.map_map]
  refine List.map_congr_left fun v _ => ?_
  simp [smul_sub]

theorem smulRows_smulRows (x y : ℝ) (m : List Vec3) :
    smulRows x (smulRows y m) = smulRows (x * y) m := by
  simp only [smulRows, List.map_map]
  refine List.map_congr_left fun v _ => ?_
  simp [smul_smul]

theorem standardize_smulRows {c : ℝ} (hc : 0 < c) (m : List Vec3) :
    standardize (smulRows c m) = standardize m := by
  rw [standardize, standardize, centerRows_smulRows, frobNorm_smulRows hc.le,
    smulRows_smulRows, mul_inv_rev, mul_assoc, inv_mul_cancel₀ hc.ne',
    mul_one]

/-- Claim C4: uniformly scaling the AI point cloud by a positive constant
before constrained alignment changes nothing: any scipy-consistent
transform for the scaled input is scipy-consistent for the unscaled one,
and the constrained-mode result — in particular the returned disparity —
is identical. -/
theorem constrained_scale_invariance (h a : Coords) (c : ℝ) (R : Mat3)
    (s : ℝ) (hc : 0 < c) :
    (IsScipyRS h (scaleCoords c a) R s ↔ IsScipyRS h a R s) ∧
      align_layouts_procrustes R s h (scaleCoords c a) false =
        align_layouts_procrustes R s h a false := by
  constructor
  · rw [IsScipyRS, IsScipyRS, shared_scaleCoords, rowsOf_scaleCoords,
      standardize_smulRows hc]
  · simp only [align_layouts_procrustes, Bool.false_eq_true, if_false,
      shared_scaleCoords, rowsOf_scaleCoords, centerRows_smulRows,
      frobNorm_smulRows hc.le, standardize_smulRows hc, mul_eq_zero,
      hc.ne', false_or]

/-- Witness for C4 at a concrete scale factor. -/
theorem constrained_scale_invariance_witness :
    (0 : ℝ) < 2 ∧
      ((IsScipyRS [] (scaleCoords 2 []) 1 0 ↔ IsScipyRS [] [] 1 0) ∧
        align_layouts_procrustes 1 0 ([] : Coords) (scaleCoords 2 []) false =
          align_layouts_procrustes 1 0 ([] : Coords) ([] : Coords) false) :=
  ⟨by norm_num, constrained_scale_invariance [] [] 2 1 0 (by norm_num)⟩

/-! ### A concrete constrained-mode alignment, solved exactly.

`exH` is a centered unit-Frobenius-norm square, `exA` the same square
stretched along the x-axis (also centered, unit norm).  For these inputs the
scipy optimum is the identity rotation with scale 4/5, and the constrained
disparity is exactly 9/25. -/

noncomputable def exH : Coords :=
  [("a", ![1 / 2, 0, 0]), ("b", ![-(1 / 2), 0, 0]),
    ("c", ![0, 1 / 2, 0]), ("d", ![0, -(1 / 2), 0])]

noncomputable def exA : Coords :=
  [("a", ![7 / 10, 0, 0]), ("b", ![-(7 / 10), 0, 0]),
    ("c", ![0, 1 / 10, 0]), ("d", ![0, -(1 / 10), 0])]

noncomputable def exHM : List Vec3 :=
  [![1 / 2, 0, 0], ![-(1 / 2), 0, 0], ![0, 1 / 2, 0], ![0, -(1 / 2), 0]]

noncomputable def exAM : List Vec3 :=
  [![7 / 10, 0, 0], ![-(7 / 10), 0, 0], ![0, 1 / 10, 0], ![0, -(1 / 10), 0]]

theorem shared_ex : shared_concepts exH exA = ["a", "b", "c", "d"] := by rfl

theorem rowsOf_exH : rowsOf exH ["a", "b", "c", "d"] = exHM := by rfl

theorem rowsOf_exA : rowsOf exA ["a", "b", "c", "d"] = exAM := by rfl

theorem smulRows_one (m : List Vec3) : smulRows 1 m = m := by
  simp [smulRows]

theorem centerRows_of_colMean_eq_zero {m : List Vec3} (h : colMean m = 0) :
    centerRows m = m := by
  simp [centerRows, h]

theorem colMean_exHM : colMean exHM = 0 := by
  funext i
  fin_cases i <;> simp [colMean, vsum, exHM]

theorem colMean_exAM : colMean exAM = 0 := by
  funext i
  fin_cases i <;> simp [colMean, vsum, exAM]

theorem frobNorm_exHM : frobNorm exHM = 1 := by
  have h : frobSq exHM = 1 := by
    simp [frobSq, sqNorm3, exHM]
    norm_num
  rw [frobNorm, h, Real.sqrt_one]

theorem frobNorm_exAM : frobNorm exAM = 1 := by
  have h : frobSq exAM = 1 := by
    simp [frobSq, sqNorm3, exAM]
    norm_num
  rw [frobNorm, h, Real.sqrt_one]

theorem standardize_exHM : standardize exHM = exHM := by
  rw [standardize, centerRows_of_colMean_eq_zero colMean_exHM, frobNorm_exHM,
    inv_one, smulRows_one]

theorem standardize_exAM : standardize exAM = exAM := by
  rw [standardize, centerRows_of_colMean_eq_zero colMean_exAM, frobNorm_exAM,
    inv_one, smulRows_one]

theorem applyRot_one (m : List Vec3) : applyRot m 1 = m := by
  simp [applyRot, Matrix.vecMul_one]

theorem exResidual_at_identity :
    procrustesResidual exHM exAM 1 (4 / 5) = 9 / 25 := by
  rw [procrustesResidual, Matrix.transpose_one, applyRot_one]
  simp [sumSqDiff, smulRows, sqNorm3, exHM, exAM]
  norm_num

theorem exResidual_lower (T : Mat3) (t : ℝ) (hT : IsOrtho T) :
    9 / 25 ≤ procrustesResidual exHM exAM T t := by
  have hTT : T.transpose * T = 1 := Matrix.mul_eq_one_comm.mp hT
  have hc0 : T 0 0 * T 0 0 + T 1 0 * T 1 0 + T 2 0 * T 2 0 = 1 := by
    have h := congrFun (congrFun hTT 0) 0
    simpa [Matrix.mul_apply, Fin.sum_univ_three, Matrix.transpose_apply,
      Matrix.one_apply] using h
  have hc1 : T 0 1 * T 0 1 + T 1 1 * T 1 1 + T 2 1 * T 2 1 = 1 := by
    have h := congrFun (congrFun hTT 1) 1
    simpa [Matrix.mul_apply, Fin.sum_univ_three, Matrix.transpose_apply,
      Matrix.one_apply] using h
  have hres : procrustesResidual exHM exAM T t =
      1 - (7 * t / 5) * T 0 0 - (t / 5) * T 1 1 + t ^ 2 := by
    simp only [procrustesResidual, sumSqDiff, smulRows, applyRot, sqNorm3,
      exHM, exAM, List.zip_cons_cons, List.zip_nil_right, List.map_cons,
      List.map_nil, List.sum_cons, List.sum_nil, Pi.sub_apply, Pi.smul_apply,
      smul_eq_mul, Matrix.vecMul, Matrix.dotProduct, Fin.sum_univ_three,
      Matrix.transpose_apply, Matrix.cons_val_zero, Matrix.cons_val_one,
      Matrix.head_cons, Matrix.cons_val_two, Matrix.tail_cons]
    linear_combination (49 * t ^ 2 / 50) * hc0 + (t ^ 2 / 50) * hc1
  have hx2 : T 0 0 ^ 2 ≤ 1 := by
    nlinarith [sq_nonneg (T 1 0), sq_nonneg (T 2 0)]
  have hy2 : T 1 1 ^ 2 ≤ 1 := by
    nlinarith [sq_nonneg (T 0 1), sq_nonneg (T 2 1)]
  rw [hres]
  nlinarith [sq_nonneg (t - (7 * T 0 0 + T 1 1) / 10),
    sq_nonneg (T 0 0 - T 1 1), hx2, hy2]

theorem exOpt : IsProcrustesOutput exHM exAM 1 (4 / 5) := by
  constructor
  · rw [IsOrtho, Matrix.transpose_one, mul_one]
  · intro T t hT
    rw [exResidual_at_identity]
    exact exResidual_lower T t hT

/-- Counterexample to C1 as stated: on `exH`/`exA` (4 shared ids) the
constrained-mode disparity is the raw scipy residual 9/25, while
`sqrt(sum of squared residuals / point count)` would be
`sqrt((9/25)/4) = 3/10 ≠ 9/25`. -/
theorem align_disparity_counterexample :
    ∃ R s, IsScipyRS exH exA R s ∧
      (∃ hd ad, align_layouts_procrustes R s exH exA false =
        .ok (hd, ad, 9 / 25)) ∧
      (9 / 25 : ℝ) ≠
        Real.sqrt ((9 / 25) / (shared_concepts exH exA).length) := by
  have hSH : standardize (rowsOf exH (shared_concepts exH exA)) = exHM := by
    rw [shared_ex, rowsOf_exH, standardize_exHM]
  have hSA : standardize (rowsOf exA (shared_concepts exH exA)) = exAM := by
    rw [shared_ex, rowsOf_exA, standardize_exAM]
  have h3 : ¬ (shared_concepts exH exA).length < 3 := by
    rw [shared_ex]
    norm_num
  have hn : ¬ (frobNorm (centerRows (rowsOf exH (shared_concepts exH exA))) = 0 ∨
      frobNorm (centerRows (rowsOf exA (shared_concepts exH exA))) = 0) := by
    rw [shared_ex, rowsOf_exH, rowsOf_exA,
      centerRows_of_colMean_eq_zero colMean_exHM,
      centerRows_of_colMean_eq_zero colMean_exAM, frobNorm_exHM, frobNorm_exAM]
    norm_num
  refine ⟨1, 4 / 5, ?_, ?_, ?_⟩
  · rw [IsScipyRS, hSH, hSA]
    exact exOpt
  · have heq := align_constrained_eq 1 (4 / 5) exH exA h3 hn
    rw [hSH, hSA, exResidual_at_identity] at heq
    exact ⟨_, _, heq⟩
  · rw [shared_ex]
    have hv : (9 / 25 : ℝ) / ((["a", "b", "c", "d"].length : ℕ) : ℝ) =
        (3 / 10) ^ 2 := by
      norm_num
    rw [hv, Real.sqrt_sq (by norm_num)]
    norm_num

/-! ### Claim C5 (corrected): the merge step of `generate_dual_layout` -/

theorem mkDualNode_id {meta : String → Option ℝ × Option ℤ}
    {hs as ho ao : Coords} {c : String} {n : DualNode}
    (h : mkDualNode meta hs as ho ao c = some n) : n.id = c := by
  rcases h1 : List.lookup c hs with _ | hp <;>
    rcases h2 : List.lookup c as with _ | ap <;>
      simp [mkDualNode, h1, h2] at h
  rw [← h]

theorem mkDualNode_isSome {hs as : Coords}
    (meta : String → Option ℝ × Option ℤ) (ho ao : Coords) {c : String}
    (h1 : c ∈ keys hs) (h2 : c ∈ keys as) :
    ∃ n, mkDualNode meta hs as ho ao c = some n := by
  obtain ⟨hp, hv1⟩ := Option.isSome_iff_exists.mp
    ((lookup_isSome_iff c hs).mpr h1)
  obtain ⟨ap, hv2⟩ := Option.isSome_iff_exists.mp
    ((lookup_isSome_iff c as).mpr h2)
  have hsome : (mkDualNode meta hs as ho ao c).isSome := by
    simp [mkDualNode, hv1, hv2]
  exact Option.isSome_iff_exists.mp hsome

theorem mkDualNode_fallback {meta : String → Option ℝ × Option ℤ}
    {hs as ho ao : Coords} {c : String} {n : DualNode}
    (h : mkDualNode meta hs as ho ao c = some n) :
    (n.id ∉ keys ho → n.pos_human_organic = n.pos_human) ∧
      (n.id ∉ keys ao → n.pos_ai_organic = n.pos_ai) := by
  have hid : n.id = c := mkDualNode_id h
  rcases h1 : List.lookup c hs with _ | hp <;>
    rcases h2 : List.lookup c as with _ | ap <;>
      simp [mkDualNode, h1, h2] at h
  constructor
  · intro hmem
    rw [hid] at hmem
    rw [← h]
    simp [(lookup_eq_none_iff c ho).mpr hmem]
  · intro hmem
    rw [hid] at hmem
    rw [← h]
    simp [(lookup_eq_none_iff c ao).mpr hmem]

theorem mergeLoop_ids {meta : String → Option ℝ × Option ℤ}
    {hs as ho ao : Coords} {cs : List String} {ns : List DualNode}
    (h : mergeLoop meta hs as ho ao cs = some ns) :
    ns.map (fun n => n.id) = cs := by
  induction cs generalizing ns with
  | nil =>
    obtain rfl : ([] : List DualNode) = ns := by
      simpa [mergeLoop] using h
    rfl
  | cons c cs ih =>
    rw [mergeLoop] at h
    rcases hmk : mkDualNode meta hs as ho ao c with _ | n <;> rw [hmk] at h
    · exact absurd h (by simp)
    · rcases hrec : mergeLoop meta hs as ho ao cs with _ | ns0 <;>
        rw [hrec] at h
      · exact absurd h (by simp)
      · obtain rfl : n :: ns0 = ns := by simpa using h
        simp only [List.map_cons]
        rw [mkDualNode_id hmk, ih hrec]

theorem mergeLoop_isSome (meta : String → Option ℝ × Option ℤ)
    (hs as ho ao : Coords) (cs : List String)
    (hall : ∀ c ∈ cs, c ∈ keys hs ∧ c ∈ keys as) :
    ∃ ns, mergeLoop meta hs as ho ao cs = some ns := by
  induction cs with
  | nil => exact ⟨[], rfl⟩
  | cons c cs ih =>
    obtain ⟨n, hn⟩ := mkDualNode_isSome meta ho ao
      (hall c (by simp)).1 (hall c (by simp)).2
    obtain ⟨ns, hns⟩ := ih fun x hx => hall x (by simp [hx])
    refine ⟨n :: ns, ?_⟩
    rw [mergeLoop, hn, hns]
    rfl

theorem mergeLoop_nodes {meta : String → Option ℝ × Option ℤ}
    {hs as ho ao : Coords} {cs : List String} {ns : List DualNode}
    (h : mergeLoop meta hs as ho ao cs = some ns) :
    ∀ n ∈ ns, ∃ c ∈ cs, mkDualNode meta hs as ho ao c = some n := by
  induction cs generalizing ns with
  | nil =>
    obtain rfl : ([] : List DualNode) = ns := by
      simpa [mergeLoop] using h
    simp
  | cons c cs ih =>
    rw [mergeLoop] at h
    rcases hmk : mkDualNode meta hs as ho ao c with _ | n0 <;> rw [hmk] at h
    · exact absurd h (by simp)
    · rcases hrec : mergeLoop meta hs as ho ao cs with _ | ns0 <;>
        rw [hrec] at h
      · exact absurd h (by simp)
      · obtain rfl : n0 :: ns0 = ns := by simpa using h
        intro n hn
        rcases List.mem_cons.mp hn with rfl | hn1
        · exact ⟨c, by simp, hmk⟩
        · obtain ⟨x, hx1, hx2⟩ := ih hrec n hn1
          exact ⟨x, by simp [hx1], hx2⟩

/-- Claim C5 (amended): the merge step iterates only over the sphere-mode
key set: every sphere-mode concept produces a node (with organic-mode
coordinates falling back to the sphere-mode ones when the concept is missing
from an organic output), but a concept present only in the organic outputs
is dropped. -/
theorem merge_keeps_sphere_concepts (meta : String → Option ℝ × Option ℤ)
    (hs as ho ao : Coords) (ns : List DualNode)
    (hok : mergeNodes meta hs as ho ao = some ns) :
    ns.map (fun n => n.id) = sortStrings (keys hs) ∧
      (∀ c ∈ keys hs, ∃ n ∈ ns, n.id = c) ∧
      ∀ n ∈ ns, (n.id ∉ keys ho → n.pos_human_organic = n.pos_human) ∧
        (n.id ∉ keys ao → n.pos_ai_organic = n.pos_ai) := by
  rw [mergeNodes] at hok
  refine ⟨mergeLoop_ids hok, ?_, ?_⟩
  · intro c hc
    have hc2 : c ∈ ns.map (fun n => n.id) := by
      rw [mergeLoop_ids hok]
      exact mem_sortStrings.mpr hc
    obtain ⟨n, hn, hid⟩ := List.mem_map.mp hc2
    exact ⟨n, hn, hid⟩
  · intro n hn
    obtain ⟨c, _, hmk⟩ := mergeLoop_nodes hok n hn
    exact mkDualNode_fallback hmk

/-- Witness for the amended C5 at a concrete input. -/
theorem merge_keeps_sphere_concepts_witness :
    ∃ ns, mergeNodes (fun _ => (none, none)) [("a", (0 : Vec3))]
        [("a", (0 : Vec3))] [] [] = some ns ∧
      (ns.map (fun n => n.id) = sortStrings (keys [("a", (0 : Vec3))]) ∧
        (∀ c ∈ keys [("a", (0 : Vec3))], ∃ n ∈ ns, n.id = c) ∧
        ∀ n ∈ ns,
          (n.id ∉ keys ([] : Coords) → n.pos_human_organic = n.pos_human) ∧
          (n.id ∉ keys ([] : Coords) → n.pos_ai_organic = n.pos_ai)) := by
  obtain ⟨ns, hns⟩ := mergeLoop_isSome (fun _ => (none, none))
    [("a", (0 : Vec3))] [("a", (0 : Vec3))] [] []
    (sortStrings (keys [("a", (0 : Vec3))]))
    (fun c hc => by
      constructor <;> simpa [keys] using mem_sortStrings.mp hc)
  refine ⟨ns, hns, merge_keeps_sphere_concepts _ _ _ _ _ ns hns⟩

/-- Counterexample to C5 as stated: the concept `"b"` is present in both
organic aligned outputs but absent from the sphere-mode output, and the
merge drops it from the final node list instead of keeping it. -/
theorem merge_drops_organic_only_concept :
    ∃ ns, mergeNodes (fun _ => (none, none)) [("a", (0 : Vec3))]
        [("a", (0 : Vec3))] [("a", (0 : Vec3)), ("b", (1 : Vec3))]
        [("a", (0 : Vec3)), ("b", (1 : Vec3))] = some ns ∧
      "b" ∈ keys [("a", (0 : Vec3)), ("b", (1 : Vec3))] ∧
      ∀ n ∈ ns, n.id ≠ "b" := by
  obtain ⟨ns, hns⟩ := mergeLoop_isSome (fun _ => (none, none))
    [("a", (0 : Vec3))] [("a", (0 : Vec3))]
    [("a", (0 : Vec3)), ("b", (1 : Vec3))] [("a", (0 : Vec3)), ("b", (1 : Vec3))]
    (sortStrings (keys [("a", (0 : Vec3))]))
    (fun c hc => by
      constructor <;> simpa [keys] using mem_sortStrings.mp hc)
  refine ⟨ns, hns, by simp [keys], ?_⟩
  intro n hn
  have hid : n.id ∈ ns.map (fun n => n.id) := List.mem_map_of_mem _ hn
  rw [mergeLoop_ids hns] at hid
  have : n.id = "a" := by simpa [sortStrings, keys] using hid
  rw [this]
  decide

/-! ### Claim C6: exactness of `compute_knn_relationships` -/

theorem mem_candidates {emb : Emb} {c : String} {cv : List ℝ} {o : String}
    {d : ℝ} :
    (o, d) ∈ candidates emb c cv ↔
      ∃ ov, (o, ov) ∈ emb ∧ o ≠ c ∧ npNormL ov ≠ 0 ∧ d = cosDist cv ov := by
  rw [candidates, List.mem_filterMap]
  constructor
  · rintro ⟨⟨q1, q2⟩, hq, hfq⟩
    dsimp only at hfq
    by_cases h1 : q1 ≠ c
    · rw [if_pos h1] at hfq
      by_cases h2 : npNormL q2 = 0
      · rw [if_pos h2] at hfq
        exact absurd hfq (by simp)
      · rw [if_neg h2] at hfq
        have hpq := Option.some.inj hfq
        have ho : q1 = o := congrArg Prod.fst hpq
        have hd : cosDist cv q2 = d := congrArg Prod.snd hpq
        subst ho
        exact ⟨q2, hq, h1, h2, hd.symm⟩
    · rw [if_neg h1] at hfq
      exact absurd hfq (by simp)
  · rintro ⟨ov, hmem, hne, hnz, rfl⟩
    refine ⟨(o, ov), hmem, ?_⟩
    dsimp only
    rw [if_pos hne, if_neg hnz]

theorem filter_flatMap {α γ : Type} (l : List α) (g : α → List γ)
    (p : γ → Bool) :
    (l.flatMap g).filter p = l.flatMap fun a => (g a).filter p := by
  induction l with
  | nil => rfl
  | cons a t ih => simp [List.flatMap_cons, List.filter_append, ih]

theorem flatMap_eq_nil_of {α γ : Type} {l : List α} {g : α → List γ}
    (h : ∀ a ∈ l, g a = []) : l.flatMap g = [] := by
  induction l with
  | nil => rfl
  | cons a t ih =>
    simp only [List.flatMap_cons, h a (by simp), List.nil_append]
    exact ih fun x hx => h x (by simp [hx])

theorem flatMap_single {γ : Type} {emb : Emb} (hnd : (keys emb).Nodup)
    {c : String} {cv : List ℝ} (hmem : (c, cv) ∈ emb)
    (g : String × List ℝ → List γ)
    (hg : ∀ q ∈ emb, q.1 ≠ c → g q = []) :
    emb.flatMap g = g (c, cv) := by
  induction emb with
  | nil => simp at hmem
  | cons q t ih =>
    simp only [keys, List.map_cons, List.nodup_cons] at hnd
    rcases List.mem_cons.mp hmem with heq | h1
    · obtain rfl := heq.symm
      have ht : t.flatMap g = [] := by
        refine flatMap_eq_nil_of fun x hx => ?_
        refine hg x (by simp [hx]) fun hxc => ?_
        have hmx : x.1 ∈ List.map Prod.fst t := List.mem_map_of_mem Prod.fst hx
        rw [hxc] at hmx
        exact hnd.1 hmx
      rw [List.flatMap_cons, ht, List.append_nil]
    · have hqc : q.1 ≠ c := by
        intro hqe
        have : c ∈ List.map Prod.fst t := by
          simpa using List.mem_map_of_mem Prod.fst h1
        rw [← hqe] at this
        exact hnd.1 this
      rw [List.flatMap_cons, hg q (by simp) hqc, List.nil_append]
      exact ih hnd.2 h1 fun x hx hxc => hg x (by simp [hx]) hxc

theorem mem_knn {emb : Emb} {k : ℕ} {t : String × String × ℝ}
    (ht : t ∈ compute_knn_relationships emb k) :
    ∃ p ∈ emb, npNormL p.2 ≠ 0 ∧ t.1 = p.1 ∧
      ∃ q ∈ candidates emb p.1 p.2, t.2.1 = q.1 ∧ t.2.2 = q.2 := by
  rw [compute_knn_relationships, List.mem_flatMap] at ht
  obtain ⟨p, hp, htp⟩ := ht
  by_cases hz : npNormL p.2 = 0
  · rw [if_pos hz] at htp
    simp at htp
  · rw [if_neg hz] at htp
    obtain ⟨q, hq, rfl⟩ := List.mem_map.mp htp
    refine ⟨p, hp, hz, rfl, q, ?_, rfl, rfl⟩
    exact (List.perm_insertionSort distLe _).mem_iff.mp
      (List.take_subset _ _ hq)

theorem knn_filter_eq (emb : Emb) (k : ℕ) (hnd : (keys emb).Nodup)
    {c : String} {cv : List ℝ} (hmem : (c, cv) ∈ emb)
    (hnz : npNormL cv ≠ 0) :
    (compute_knn_relationships emb k).filter (fun t => t.1 == c) =
      ((List.insertionSort distLe (candidates emb c cv)).take k).map
        (fun q => (c, q.1, q.2)) := by
  rw [compute_knn_relationships, filter_flatMap]
  rw [flatMap_single hnd hmem _ ?_]
  · dsimp only
    rw [if_neg hnz]
    refine List.filter_eq_self.mpr fun b hb => ?_
    obtain ⟨r, _, rfl⟩ := List.mem_map.mp hb
    simp
  · intro q hq hqc
    dsimp only
    split
    · rfl
    · refine List.filter_eq_nil_iff.mpr fun b hb => ?_
      obtain ⟨r, _, rfl⟩ := List.mem_map.mp hb
      simp [hqc]

/-- Claim C6: for every concept with a non-zero-norm vector,
`compute_knn_relationships` emits exactly `min(k, number of other
non-zero-norm concepts)` directed edges (the block of triples with that
source), with the correct cosine distances, sorted ascending, and all going
to minimal-distance candidates (every valid candidate that was not chosen is
at least as far as every chosen one); concepts with zero-norm vectors occur
in no triple, neither as source nor as target. -/
theorem knn_exactness (emb : Emb) (k : ℕ) (hnd : (keys emb).Nodup) :
    (∀ c cv, (c, cv) ∈ emb → npNormL cv = 0 →
        ∀ t ∈ compute_knn_relationships emb k, t.1 ≠ c ∧ t.2.1 ≠ c) ∧
      ∀ c cv, (c, cv) ∈ emb → npNormL cv ≠ 0 →
        ∃ l, (compute_knn_relationships emb k).filter (fun t => t.1 == c) =
            l.map (fun q => (c, q.1, q.2)) ∧
          l.length = min k (candidates emb c cv).length ∧
          List.Sorted distLe l ∧
          (∀ q ∈ l, ∃ ov, (q.1, ov) ∈ emb ∧ q.1 ≠ c ∧ npNormL ov ≠ 0 ∧
            q.2 = cosDist cv ov) ∧
          ∀ o ov, (o, ov) ∈ emb → o ≠ c → npNormL ov ≠ 0 →
            o ∉ l.map Prod.fst → ∀ q ∈ l, q.2 ≤ cosDist cv ov := by
  constructor
  · intro c cv hc hz t ht
    obtain ⟨p, hp, hpz, ht1, q, hq, ht2, _⟩ := mem_knn ht
    obtain ⟨ov, hovm, hqne, hovz, _⟩ := mem_candidates.mp
      (by simpa using hq : (q.1, q.2) ∈ candidates emb p.1 p.2)
    constructor
    · intro hec
      rw [ht1] at hec
      have hpcv : p.2 = cv := by
        refine keys_nodup_lookup_unique hnd ?_ hc
        rw [← hec]
        simpa using hp
      rw [hpcv] at hpz
      exact hpz hz
    · intro hec
      rw [ht2] at hec
      have hocv : ov = cv := by
        refine keys_nodup_lookup_unique hnd ?_ hc
        rw [← hec]
        exact hovm
      rw [hocv] at hovz
      exact hovz hz
  · intro c cv hc hnz
    refine ⟨(List.insertionSort distLe (candidates emb c cv)).take k,
      knn_filter_eq emb k hnd hc hnz, ?_, ?_, ?_, ?_⟩
    · rw [List.length_take, (List.perm_insertionSort distLe _).length_eq]
    · exact ((List.sorted_insertionSort distLe _).sublist
        (List.take_sublist _ _))
    · intro q hq
      have hqc : (q.1, q.2) ∈ candidates emb c cv := by
        simpa using (List.perm_insertionSort distLe _).mem_iff.mp
          (List.take_subset _ _ hq)
      obtain ⟨ov, hovm, hqne, hovz, hqd⟩ := mem_candidates.mp hqc
      exact ⟨ov, hovm, hqne, hovz, hqd⟩
    · intro o ov hoemb hone honz hnotin q hq
      have hcand : (o, cosDist cv ov) ∈ candidates emb c cv :=
        mem_candidates.mpr ⟨ov, hoemb, hone, honz, rfl⟩
      have hsortmem : (o, cosDist cv ov) ∈
          List.insertionSort distLe (candidates emb c cv) :=
        (List.perm_insertionSort distLe _).mem_iff.mpr hcand
      have hsorted : List.Pairwise distLe
          (List.insertionSort distLe (candidates emb c cv)) :=
        List.sorted_insertionSort distLe _
      rw [← List.take_append_drop k
        (List.insertionSort distLe (candidates emb c cv))] at hsortmem hsorted
      rcases List.mem_append.mp hsortmem with hin | hin
      · exact absurd (List.mem_map_of_mem Prod.fst hin) hnotin
      · exact (List.pairwise_append.mp hsorted).2.2 q hq (o, cosDist cv ov) hin

/-- Witness for C6: three concepts with axis-aligned vectors, one of them
zero-norm, under k = 1. -/
theorem knn_exactness_witness :
    (keys [("a", [(1 : ℝ), 0]), ("b", [(0 : ℝ), 1]),
      ("z", [(0 : ℝ), 0])]).Nodup ∧
      ∀ t ∈ compute_knn_relationships
          [("a", [(1 : ℝ), 0]), ("b", [(0 : ℝ), 1]), ("z", [(0 : ℝ), 0])] 1,
        t.1 ≠ "z" ∧ t.2.1 ≠ "z" := by
  have hnd : (keys [("a", [(1 : ℝ), 0]), ("b", [(0 : ℝ), 1]),
      ("z", [(0 : ℝ), 0])]).Nodup := by
    rw [keys]
    decide
  have hz : npNormL [(0 : ℝ), 0] = 0 := by
    have hd : dotL [(0 : ℝ), 0] [(0 : ℝ), 0] = 0 := by
      norm_num [dotL]
    rw [npNormL, hd, Real.sqrt_zero]
  exact ⟨hnd,
    (knn_exactness [("a", [(1 : ℝ), 0]), ("b", [(0 : ℝ), 1]),
      ("z", [(0 : ℝ), 0])] 1 hnd).1 "z" [(0 : ℝ), 0] (by simp) hz⟩

end LSCP
